import Mathlib

/-!
Verification of the text-layout subsystem of the `piet` coregraphics backend
(`piet-coregraphics/src/text.rs`), shallowly embedded in Lean.

Modelling choices:
* Rust `char` is Lean `Char` (both are Unicode scalar values); the source text
  (`String`) is a `List Char`; `c.len_utf8()` / `c.len_utf16()` are computed
  from the scalar value exactly as in the Rust standard library.
* Byte offsets are `Nat`; a panic (index out of bounds, `expect`, `panic!`
  in the Rust source) is modelled as `Option.none` in the result type, while
  a regular Rust `Option::None`/`Some` is the inner `Option` layer.
* `f64` wrap-width values are modelled by the type `F` below: `nan`, the two
  infinities, and finite values as exact rationals.  The only operation the
  source performs on widths is IEEE `!=`, modelled by `fbeq` (IEEE `==`:
  `nan` compares unequal to everything, including itself).
* The CoreText shaper (`Framesetter::suggest_frame_size`,
  `create_frame`, `Frame::get_lines`, `get_line_origins`,
  `Line::get_string_range`, `get_typographic_bounds`) is an external
  library; it is modelled as an opaque function `shaper : F → ShapeResult`
  giving, for a width constraint, the shaped lines (UTF-16 start offset,
  typographic bounds, baseline origin) and the suggested frame size.
  `get_line_origins(0..line_count)` returns exactly one origin per line, so
  the origin is stored inside each `ShapedLine`.
-/

/-- Number of UTF-8 code units of a scalar value, as Rust `char::len_utf8`. -/
def len_utf8 (c : Char) : Nat :=
  if c.toNat < 0x80 then 1
  else if c.toNat < 0x800 then 2
  else if c.toNat < 0x10000 then 3
  else 4

/-- Number of UTF-16 code units of a scalar value, as Rust `char::len_utf16`. -/
def len_utf16 (c : Char) : Nat :=
  if c.toNat < 0x10000 then 1 else 2

/-- UTF-8 byte length of a string (Rust `str::len`). -/
def utf8Len : List Char → Nat
  | [] => 0
  | c :: cs => len_utf8 c + utf8Len cs

/-- UTF-16 code-unit length of a string. -/
def utf16Len : List Char → Nat
  | [] => 0
  | c :: cs => len_utf16 c + utf16Len cs

theorem len_utf8_pos (c : Char) : 1 ≤ len_utf8 c := by
  unfold len_utf8; split <;> [skip; split] <;> [skip; skip; split] <;> omega

theorem len_utf16_pos (c : Char) : 1 ≤ len_utf16 c := by
  unfold len_utf16; split <;> omega

theorem utf8Len_append (xs ys : List Char) :
    utf8Len (xs ++ ys) = utf8Len xs + utf8Len ys := by
  induction xs with
  | nil => simp [utf8Len]
  | cons c cs ih => simp [utf8Len, ih]; omega

theorem utf16Len_append (xs ys : List Char) :
    utf16Len (xs ++ ys) = utf16Len xs + utf16Len ys := by
  induction xs with
  | nil => simp [utf16Len]
  | cons c cs ih => simp [utf16Len, ih]; omega

theorem length_le_utf16Len (l : List Char) : l.length ≤ utf16Len l := by
  induction l with
  | nil => simp [utf16Len]
  | cons c cs ih => have := len_utf16_pos c; simp [utf16Len]; omega

theorem utf16Len_take_add (s : List Char) (n m : Nat) :
    utf16Len (s.take (n + m)) = utf16Len (s.take n) + utf16Len ((s.drop n).take m) := by
  rw [List.take_add, utf16Len_append]

theorem utf8Len_take_add (s : List Char) (n m : Nat) :
    utf8Len (s.take (n + m)) = utf8Len (s.take n) + utf8Len ((s.drop n).take m) := by
  rw [List.take_add, utf8Len_append]

theorem utf16Len_take_pos (l : List Char) (m : Nat) (h1 : 1 ≤ m) (h2 : m ≤ l.length) :
    1 ≤ utf16Len (l.take m) := by
  have hlen : (l.take m).length = m := by
    rw [List.length_take]; omega
  calc 1 ≤ m := h1
    _ = (l.take m).length := hlen.symm
    _ ≤ utf16Len (l.take m) := length_le_utf16Len _

/-- Strict monotonicity of UTF-16 prefix lengths in the prefix size. -/
theorem utf16Len_take_lt (s : List Char) (n m : Nat) (h1 : n < m) (h2 : m ≤ s.length) :
    utf16Len (s.take n) < utf16Len (s.take m) := by
  have h : m = n + (m - n) := by omega
  rw [h, utf16Len_take_add]
  have : 1 ≤ utf16Len ((s.drop n).take (m - n)) := by
    apply utf16Len_take_pos
    · omega
    · rw [List.length_drop]; omega
  omega

theorem utf8Len_take_le (s : List Char) (n m : Nat) (h1 : n ≤ m) :
    utf8Len (s.take n) ≤ utf8Len (s.take m) := by
  have h : m = n + (m - n) := by omega
  rw [h, utf8Len_take_add]; omega

theorem utf8Len_take_le_utf8Len (s : List Char) (n : Nat) :
    utf8Len (s.take n) ≤ utf8Len s := by
  conv_rhs => rw [← List.take_append_drop n s]
  rw [utf8Len_append]; omega

/-! The UTF-16 → UTF-8 offset scan of `rebuild_line_offsets`
(`text.rs` lines 207-225).  The Rust code keeps one `chars` iterator and the
two accumulators `cur_16`/`cur_8` in the enclosing scope of the `map` closure,
so the character sequence is traversed in a single forward pass shared across
all targets; the embedding threads `(chars, cur16, cur8)` through the
recursion in the same way.  `scanStep` is the body of the
`while let Some(c) = chars.next()` loop for one target; its `none` result is
the `panic!("error calculating utf8 offsets")`. -/

/-- One target's scan: consume characters, accumulating UTF-16 and UTF-8
counts, until the UTF-16 count hits `target`; return the UTF-8 count plus the
iterator state, or `none` for the panic when the characters run out. -/
def scanStep : List Char → Nat → Nat → Nat → Option (Nat × List Char × Nat × Nat)
  | [], _, _, _ => none
  | c :: rest, cur16, cur8, target =>
    let cur16' := cur16 + len_utf16 c
    let cur8' := cur8 + len_utf8 c
    if cur16' = target then some (cur8', rest, cur16', cur8')
    else scanStep rest cur16' cur8' target

/-- The `map`/`collect` over the native lines' UTF-16 start offsets, with the
`off_16 == 0` special case taken verbatim from the source (`return 0` without
touching the iterator). -/
def rebuildAux : List Nat → List Char → Nat → Nat → Option (List Nat)
  | [], _, _, _ => some []
  | t :: ts, chars, cur16, cur8 =>
    if t = 0 then (rebuildAux ts chars cur16 cur8).map (0 :: ·)
    else
      match scanStep chars cur16 cur8 t with
      | none => none
      | some (off8, rest, c16, c8) => (rebuildAux ts rest c16 c8).map (off8 :: ·)

/-- `CoreGraphicsTextLayout::rebuild_line_offsets`, as a function of the
source string and the UTF-16 line-start offsets reported by the shaper.
`none` is the `panic!`. -/
def rebuild_line_offsets (s : List Char) (targets : List Nat) : Option (List Nat) :=
  rebuildAux targets s 0 0

/-- A successful scan lands exactly on the unique character boundary whose
accumulated UTF-16 count matches the target. -/
theorem scanStep_spec (l : List Char) :
    ∀ (m a16 a8 : Nat), 1 ≤ m → m ≤ l.length →
      scanStep l a16 a8 (a16 + utf16Len (l.take m)) =
        some (a8 + utf8Len (l.take m), l.drop m,
              a16 + utf16Len (l.take m), a8 + utf8Len (l.take m)) := by
  induction l with
  | nil => intro m a16 a8 h1 h2; simp at h2; omega
  | cons c rest ih =>
    intro m a16 a8 h1 h2
    match m, h1 with
    | 1, _ =>
      simp [List.take, utf16Len, utf8Len, scanStep]
    | m + 2, _ =>
      have hm : 1 ≤ m + 1 := by omega
      have hm2 : m + 1 ≤ rest.length := by simp at h2; omega
      have hpos : 1 ≤ utf16Len (rest.take (m + 1)) := utf16Len_take_pos _ _ hm hm2
      simp only [List.take, utf16Len, utf8Len, scanStep]
      rw [if_neg (by omega)]
      have := ih (m + 1) (a16 + len_utf16 c) (a8 + len_utf8 c) hm hm2
      rw [show a16 + (len_utf16 c + utf16Len (rest.take (m + 1)))
            = a16 + len_utf16 c + utf16Len (rest.take (m + 1)) by omega] at *
      rw [this]
      simp only [List.drop_succ_cons, Option.some.injEq, Prod.mk.injEq]
      exact ⟨by omega, trivial, trivial, by omega⟩

/-- If no character boundary ever matches the target, the scan exhausts the
iterator and panics. -/
theorem scanStep_none (l : List Char) :
    ∀ (a16 a8 t : Nat),
      (∀ m, 1 ≤ m → m ≤ l.length → a16 + utf16Len (l.take m) ≠ t) →
      scanStep l a16 a8 t = none := by
  induction l with
  | nil => intro a16 a8 t _; rfl
  | cons c rest ih =>
    intro a16 a8 t h
    simp only [scanStep]
    rw [if_neg]
    · apply ih
      intro m h1 h2 hc
      refine h (m + 1) (by omega) (by simp; omega) ?_
      simp only [List.take, utf16Len]
      omega
    · have := h 1 (by omega) (by simp)
      simp only [List.take, utf16Len] at this
      simpa [utf16Len] using this

/-- Characterization of a successful scan: it consumed `m ≥ 1` characters and
the resulting state is the accumulated counts at that boundary. -/
theorem scanStep_some (l : List Char) :
    ∀ (a16 a8 t off8 : Nat) (rest : List Char) (b16 b8 : Nat),
      scanStep l a16 a8 t = some (off8, rest, b16, b8) →
      ∃ m, 1 ≤ m ∧ m ≤ l.length ∧
        t = a16 + utf16Len (l.take m) ∧
        off8 = a8 + utf8Len (l.take m) ∧
        rest = l.drop m ∧ b16 = t ∧ b8 = off8 := by
  induction l with
  | nil => intro a16 a8 t off8 rest b16 b8 h; simp [scanStep] at h
  | cons c cs ih =>
    intro a16 a8 t off8 rest b16 b8 h
    simp only [scanStep] at h
    by_cases hc : a16 + len_utf16 c = t
    · rw [if_pos hc] at h
      simp only [Option.some.injEq, Prod.mk.injEq] at h
      obtain ⟨h1, h2, h3, h4⟩ := h
      refine ⟨1, le_refl _, by simp, ?_, ?_, ?_, ?_, ?_⟩
      · simp only [List.take, utf16Len]; omega
      · simp only [List.take, utf8Len]; omega
      · simpa using h2.symm
      · omega
      · omega
    · rw [if_neg hc] at h
      obtain ⟨m, hm1, hm2, ht, ho, hr, hb16, hb8⟩ := ih _ _ _ _ _ _ _ h
      refine ⟨m + 1, by omega, by simp; omega, ?_, ?_, ?_, hb16, hb8⟩
      · simp only [List.take, utf16Len]; omega
      · simp only [List.take, utf8Len]; omega
      · simpa using hr

theorem rebuildAux_cons_zero (ts : List Nat) (chars : List Char) (cur16 cur8 : Nat) :
    rebuildAux (0 :: ts) chars cur16 cur8 = (rebuildAux ts chars cur16 cur8).map (0 :: ·) :=
  rfl

theorem rebuildAux_cons_scan (t : Nat) (ts : List Nat) (chars : List Char)
    (cur16 cur8 off8 : Nat) (rest : List Char) (c16 c8 : Nat) (ht : t ≠ 0)
    (hscan : scanStep chars cur16 cur8 t = some (off8, rest, c16, c8)) :
    rebuildAux (t :: ts) chars cur16 cur8 = (rebuildAux ts rest c16 c8).map (off8 :: ·) := by
  simp only [rebuildAux]
  rw [if_neg ht, hscan]

theorem rebuildAux_cons_abort (t : Nat) (ts : List Nat) (chars : List Char)
    (cur16 cur8 : Nat) (ht : t ≠ 0)
    (hscan : scanStep chars cur16 cur8 t = none) :
    rebuildAux (t :: ts) chars cur16 cur8 = none := by
  simp only [rebuildAux]
  rw [if_neg ht, hscan]

/-- Main correctness of the shared-pass rebuild: starting `n0` characters into
the string with consistent accumulators, a strictly ascending list of
character cut points `ns` (each past `n0`) is mapped to the UTF-8 lengths of
the corresponding prefixes. -/
theorem rebuildAux_spec (s : List Char) :
    ∀ (ns : List Nat) (n0 : Nat), n0 ≤ s.length →
      (∀ n ∈ ns, n ≤ s.length) → List.Chain' (· < ·) (n0 :: ns) →
      rebuildAux (ns.map fun n => utf16Len (s.take n)) (s.drop n0)
          (utf16Len (s.take n0)) (utf8Len (s.take n0)) =
        some (ns.map fun n => utf8Len (s.take n)) := by
  intro ns
  induction ns with
  | nil => intro n0 _ _ _; rfl
  | cons n rest ih =>
    intro n0 hn0 hmem hchain
    have hn0n : n0 < n := (List.chain'_cons.mp hchain).1
    have hns : n ≤ s.length := hmem n (List.mem_cons_self n rest)
    have htpos : 1 ≤ utf16Len (s.take n) := by
      have := utf16Len_take_lt s n0 n hn0n hns
      omega
    have hadd : n0 + (n - n0) = n := by omega
    have hsplit16 : utf16Len (s.take n)
        = utf16Len (s.take n0) + utf16Len ((s.drop n0).take (n - n0)) := by
      rw [← utf16Len_take_add, hadd]
    have hsplit8 : utf8Len (s.take n)
        = utf8Len (s.take n0) + utf8Len ((s.drop n0).take (n - n0)) := by
      rw [← utf8Len_take_add, hadd]
    have hscan := scanStep_spec (s.drop n0) (n - n0)
      (utf16Len (s.take n0)) (utf8Len (s.take n0))
      (by omega) (by rw [List.length_drop]; omega)
    rw [← hsplit16, ← hsplit8] at hscan
    have hdrop : (s.drop n0).drop (n - n0) = s.drop n := by
      rw [List.drop_drop, hadd]
    simp only [List.map_cons]
    rw [rebuildAux_cons_scan _ _ _ _ _ _ _ _ _ (by omega) hscan, hdrop,
      ih n (by omega) (fun x hx => hmem x (List.mem_cons_of_mem _ hx))
        (List.chain'_cons.mp hchain).2]
    rfl

/-- Fatal-abort direction: from any consistent mid-scan state, if some target
in the remaining list is a value that is not an accumulated UTF-16 boundary of
the whole string, the rebuild returns `none` (the panic). -/
theorem rebuildAux_none (s : List Char) (bad : Nat)
    (hbad : ∀ n, n ≤ s.length → utf16Len (s.take n) ≠ bad) :
    ∀ (ts : List Nat) (n0 : Nat), n0 ≤ s.length → bad ∈ ts →
      rebuildAux ts (s.drop n0) (utf16Len (s.take n0)) (utf8Len (s.take n0)) = none := by
  have hbad0 : bad ≠ 0 := fun h0 => hbad 0 (by omega) (by simp [utf16Len, h0])
  intro ts
  induction ts with
  | nil => intro n0 _ hmem; simp at hmem
  | cons t rest ih =>
    intro n0 hn0 hmem
    by_cases ht0 : t = 0
    · subst ht0
      have hmem' : bad ∈ rest := by
        rcases List.mem_cons.mp hmem with h | h
        · exact absurd h hbad0
        · exact h
      rw [rebuildAux_cons_zero, ih n0 hn0 hmem']
      rfl
    · cases hscan : scanStep (s.drop n0) (utf16Len (s.take n0)) (utf8Len (s.take n0)) t with
      | none => exact rebuildAux_cons_abort _ _ _ _ _ ht0 hscan
      | some val =>
        obtain ⟨off8, rest', b16, b8⟩ := val
        obtain ⟨m, hm1, hm2, ht, ho, hr, hb16, hb8⟩ := scanStep_some _ _ _ _ _ _ _ _ hscan
        have hlen : m ≤ s.length - n0 := by rw [List.length_drop] at hm2; omega
        have ht' : t = utf16Len (s.take (n0 + m)) := by
          rw [utf16Len_take_add]; omega
        have htbad : t ≠ bad := by
          rw [ht']; exact hbad (n0 + m) (by omega)
        have hmem' : bad ∈ rest := by
          rcases List.mem_cons.mp hmem with h | h
          · exact absurd h.symm htbad
          · exact h
        have ho' : off8 = utf8Len (s.take (n0 + m)) := by
          rw [utf8Len_take_add]; omega
        have hr' : rest' = s.drop (n0 + m) := by
          rw [hr, List.drop_drop]
        rw [rebuildAux_cons_scan _ _ _ _ _ _ _ _ _ ht0 hscan, hr', hb16, ht', hb8, ho',
          ih (n0 + m) (by omega) hmem']
        rfl

/-- The rebuild produces exactly one UTF-8 offset per target. -/
theorem rebuildAux_length :
    ∀ (ts : List Nat) (chars : List Char) (c16 c8 : Nat) (offs : List Nat),
      rebuildAux ts chars c16 c8 = some offs → offs.length = ts.length := by
  intro ts
  induction ts with
  | nil => intro chars c16 c8 offs h; simp [rebuildAux] at h; simp [← h]
  | cons t rest ih =>
    intro chars c16 c8 offs h
    by_cases ht0 : t = 0
    · subst ht0
      rw [rebuildAux_cons_zero] at h
      rcases Option.map_eq_some'.mp h with ⟨offs', hrec, hoffs⟩
      rw [← hoffs]
      simp [ih _ _ _ _ hrec]
    · cases hscan : scanStep chars c16 c8 t with
      | none => rw [rebuildAux_cons_abort _ _ _ _ _ ht0 hscan] at h; simp at h
      | some val =>
        obtain ⟨off8, rest', b16, b8⟩ := val
        rw [rebuildAux_cons_scan _ _ _ _ _ _ _ _ _ ht0 hscan] at h
        rcases Option.map_eq_some'.mp h with ⟨offs', hrec, hoffs⟩
        rw [← hoffs]
        simp [ih _ _ _ _ hrec]

/-- Top-level form of `rebuildAux_spec`: for line starts that are the UTF-16
lengths of an ascending chain of character cut points, the rebuild succeeds
and yields the UTF-8 lengths of the same prefixes. -/
theorem rebuild_line_offsets_good (s : List Char) (ns : List Nat)
    (hmem : ∀ n ∈ ns, n ≤ s.length) (hchain : List.Chain' (· < ·) ns) :
    rebuild_line_offsets s (ns.map fun n => utf16Len (s.take n)) =
      some (ns.map fun n => utf8Len (s.take n)) := by
  unfold rebuild_line_offsets
  cases ns with
  | nil => rfl
  | cons n rest =>
    by_cases hn : n = 0
    · subst hn
      simp only [List.map_cons, List.take_zero, utf16Len, utf8Len]
      rw [rebuildAux_cons_zero]
      have := rebuildAux_spec s rest 0 (by omega)
        (fun x hx => hmem x (List.mem_cons_of_mem _ hx)) hchain
      simp only [List.drop_zero, List.take_zero, utf16Len, utf8Len] at this
      rw [this]
      rfl
    · have hchain' : List.Chain' (· < ·) (0 :: n :: rest) := by
        rw [List.chain'_cons]
        exact ⟨by omega, hchain⟩
      have := rebuildAux_spec s (n :: rest) 0 (by omega) hmem hchain'
      simpa only [List.drop_zero, List.take_zero, utf16Len, utf8Len] using this

/-! Byte-indexed slicing.  `str::get_unchecked(start..end)` in `line_text` is
an `unsafe` slice at byte offsets: it is undefined behaviour unless both
offsets are character boundaries with `start ≤ end ≤ len`.  The model returns
`none` exactly in the undefined cases, so a proof that the result is `some`
is a proof that the unchecked slice is valid UTF-8 and in bounds. -/

/-- The first `n` bytes of a string as characters; `none` if `n` overruns the
string or falls inside a multi-byte character. -/
def takeBytes : List Char → Nat → Option (List Char)
  | _, 0 => some []
  | [], _ + 1 => none
  | c :: cs, n + 1 =>
    if len_utf8 c ≤ n + 1 then (takeBytes cs (n + 1 - len_utf8 c)).map (c :: ·) else none

/-- Drop the first `n` bytes of a string; `none` if `n` overruns the string
or falls inside a multi-byte character. -/
def dropBytes : List Char → Nat → Option (List Char)
  | l, 0 => some l
  | [], _ + 1 => none
  | c :: cs, n + 1 =>
    if len_utf8 c ≤ n + 1 then dropBytes cs (n + 1 - len_utf8 c) else none

/-- The byte slice `s[a..b]`, valid only on character boundaries. -/
def byteSlice (s : List Char) (a b : Nat) : Option (List Char) :=
  (takeBytes s b).bind fun p => dropBytes p a

theorem takeBytes_zero (l : List Char) : takeBytes l 0 = some [] := by
  cases l <;> rfl

theorem dropBytes_zero (l : List Char) : dropBytes l 0 = some l := by
  cases l <;> rfl

theorem takeBytes_exact (xs : List Char) :
    ∀ ys : List Char, takeBytes (xs ++ ys) (utf8Len xs) = some xs := by
  induction xs with
  | nil => intro ys; simp only [List.nil_append, utf8Len]; exact takeBytes_zero ys
  | cons c cs ih =>
    intro ys
    have hpos := len_utf8_pos c
    obtain ⟨m, hm⟩ : ∃ m, len_utf8 c + utf8Len cs = m + 1 :=
      ⟨len_utf8 c + utf8Len cs - 1, by omega⟩
    show takeBytes (c :: (cs ++ ys)) (utf8Len (c :: cs)) = some (c :: cs)
    simp only [utf8Len] at hm ⊢
    rw [hm]
    simp only [takeBytes]
    rw [if_pos (by omega), show m + 1 - len_utf8 c = utf8Len cs by omega, ih ys]
    rfl

theorem dropBytes_exact (xs : List Char) :
    ∀ ys : List Char, dropBytes (xs ++ ys) (utf8Len xs) = some ys := by
  induction xs with
  | nil => intro ys; simp only [List.nil_append, utf8Len]; exact dropBytes_zero ys
  | cons c cs ih =>
    intro ys
    have hpos := len_utf8_pos c
    obtain ⟨m, hm⟩ : ∃ m, len_utf8 c + utf8Len cs = m + 1 :=
      ⟨len_utf8 c + utf8Len cs - 1, by omega⟩
    show dropBytes (c :: (cs ++ ys)) (utf8Len (c :: cs)) = some ys
    simp only [utf8Len] at hm ⊢
    rw [hm]
    simp only [dropBytes]
    rw [if_pos (by omega), show m + 1 - len_utf8 c = utf8Len cs by omega, ih ys]

theorem takeBytes_take (s : List Char) (n : Nat) :
    takeBytes s (utf8Len (s.take n)) = some (s.take n) := by
  have h := takeBytes_exact (s.take n) (s.drop n)
  rwa [List.take_append_drop] at h

/-- Slicing between the byte offsets of two nested character prefixes
succeeds and yields the characters in between. -/
theorem byteSlice_boundaries (s : List Char) (a b : Nat) (hab : a ≤ b) :
    byteSlice s (utf8Len (s.take a)) (utf8Len (s.take b)) =
      some ((s.take b).drop a) := by
  unfold byteSlice
  rw [takeBytes_take]
  have htt : (s.take b).take a = s.take a := by
    rw [List.take_take, Nat.min_def, if_pos hab]
  have h := dropBytes_exact ((s.take b).take a) ((s.take b).drop a)
  rw [List.take_append_drop] at h
  rw [htt] at h
  exact h

/-- The per-line slices of a layout: consecutive cut points, the last line
running to the end of the string. -/
def lineSlices (s : List Char) : Nat → List Nat → List (List Char)
  | a, [] => [s.drop a]
  | a, b :: rest => (s.take b).drop a :: lineSlices s b rest

/-- Joining consecutive slices of an ascending in-bounds cut list recovers
the suffix of the string from the first cut on. -/
theorem join_lineSlices (s : List Char) :
    ∀ (ns : List Nat) (a : Nat), a ≤ s.length → (∀ n ∈ ns, n ≤ s.length) →
      List.Chain' (· ≤ ·) (a :: ns) →
      (lineSlices s a ns).flatten = s.drop a := by
  intro ns
  induction ns with
  | nil => intro a _ _ _; simp [lineSlices]
  | cons b rest ih =>
    intro a ha hmem hchain
    have hab : a ≤ b := (List.chain'_cons.mp hchain).1
    have hb : b ≤ s.length := hmem b (List.mem_cons_self b rest)
    simp only [lineSlices, List.flatten_cons]
    rw [ih b hb (fun x hx => hmem x (List.mem_cons_of_mem _ hx))
      (List.chain'_cons.mp hchain).2]
    have hsplit : s.drop a = (s.take b).drop a ++ s.drop b := by
      conv_lhs => rw [show s = s.take b ++ s.drop b from (List.take_append_drop b s).symm]
      rw [List.drop_append_of_le_length]
      rw [List.length_take]
      omega
    exact hsplit.symm

/-! The layout engine model (`text.rs` lines 24-241). -/

/-- Model of `f64` width values: NaN, the infinities, and exact finite
values.  The source only ever compares widths with IEEE `!=`, so rounding of
finite values is irrelevant; bit-level payloads of NaN are conflated (all
NaNs compare unequal to everything anyway). -/
inductive F where
  | nan : F
  | inf : F
  | ninf : F
  | fin : ℚ → F
deriving DecidableEq

/-- IEEE `==` on widths: `nan` is unequal to everything, including itself. -/
def fbeq : F → F → Bool
  | .nan, _ => false
  | _, .nan => false
  | .inf, .inf => true
  | .ninf, .ninf => true
  | .fin a, .fin b => a == b
  | _, _ => false

theorem fbeq_nan_right (w : F) : fbeq w F.nan = false := by
  cases w <;> rfl

theorem fbeq_refl (w : F) (h : w ≠ F.nan) : fbeq w w = true := by
  cases w with
  | nan => exact absurd rfl h
  | inf => rfl
  | ninf => rfl
  | fin q => simp [fbeq]

theorem fbeq_true_iff (a b : F) : fbeq a b = true ↔ a = b ∧ a ≠ F.nan := by
  cases a <;> cases b <;> simp [fbeq]

/-- One line of the shaped frame: `Line::get_string_range().location` (a
UTF-16 code-unit offset), the typographic bounds triple, and the line's
baseline origin `y` in the native bottom-up coordinates, as returned by
`Frame::get_line_origins`. -/
structure ShapedLine where
  utf16Start : Nat
  ascent : ℚ
  descent : ℚ
  leading : ℚ
  originY : ℚ
deriving DecidableEq

/-- The native shaper's output for one width constraint:
`suggest_frame_size` gives `(width, height)` and `create_frame` plus the
line accessors give the lines. -/
structure ShapeResult where
  lines : List ShapedLine
  width : ℚ
  height : ℚ
deriving DecidableEq

/-- Model of the `LineMetric` record returned by `line_metric`. -/
structure LineMetric where
  start_offset : Nat
  end_offset : Nat
  trailing_whitespace : Nat
  baseline : ℚ
  height : ℚ
  cumulative_height : ℚ
deriving DecidableEq

/-- The cached layout state (`struct CoreGraphicsTextLayout`).  The opaque
`attr_string`/`framesetter` handles are pure functions of the string and font
and are represented by the ambient `shaper` function passed to the
operations. -/
structure CoreGraphicsTextLayout where
  string : List Char
  frame : Option (List ShapedLine)
  line_y_positions : List ℚ
  line_offsets : List Nat
  frame_size : ℚ × ℚ
  width_constraint : F
deriving DecidableEq

namespace CoreGraphicsTextLayout

/-- `line_count` (`text.rs` 151-153). -/
def line_count (st : CoreGraphicsTextLayout) : Nat :=
  st.line_y_positions.length

/-- `update_width` (`text.rs` 87-108).  The Rust function returns
`Result<(), Error>` and its only exit is `Ok(())`; the outer `Option` models
the `panic!` reachable through `rebuild_line_offsets`, and the `Bool` records
whether the shaper was invoked (the call-count instrumentation of the spec's
idempotence property).  `new_width: impl Into<Option<f64>>` with
`unwrap_or(INFINITY)` is the `Option.getD … F.inf`. -/
def relayout_state (st : CoreGraphicsTextLayout) (width : F) (r : ShapeResult)
    (offs : List Nat) : CoreGraphicsTextLayout :=
  { st with
      width_constraint := width
      frame := some r.lines
      line_y_positions := r.lines.map fun l => r.height - l.originY
      frame_size := (r.width, r.height)
      line_offsets := offs }

def update_width (shaper : F → ShapeResult) (st : CoreGraphicsTextLayout)
    (new_width : Option F) : Option (CoreGraphicsTextLayout × Bool) :=
  if fbeq (new_width.getD F.inf) st.width_constraint then
    some (st, false)
  else
    match rebuild_line_offsets st.string
        ((shaper (new_width.getD F.inf)).lines.map ShapedLine.utf16Start) with
    | none => none
    | some offs =>
      some (relayout_state st (new_width.getD F.inf) (shaper (new_width.getD F.inf)) offs,
        true)

theorem update_width_skip (shaper : F → ShapeResult) (st : CoreGraphicsTextLayout)
    (nw : Option F) (h : fbeq (nw.getD F.inf) st.width_constraint = true) :
    update_width shaper st nw = some (st, false) := by
  unfold update_width
  rw [if_pos h]

theorem update_width_shape (shaper : F → ShapeResult) (st : CoreGraphicsTextLayout)
    (nw : Option F) (offs : List Nat)
    (h : fbeq (nw.getD F.inf) st.width_constraint = false)
    (hreb : rebuild_line_offsets st.string
        ((shaper (nw.getD F.inf)).lines.map ShapedLine.utf16Start) = some offs) :
    update_width shaper st nw =
      some (relayout_state st (nw.getD F.inf) (shaper (nw.getD F.inf)) offs, true) := by
  unfold update_width
  rw [if_neg (by simp [h]), hreb]

theorem update_width_abort (shaper : F → ShapeResult) (st : CoreGraphicsTextLayout)
    (nw : Option F)
    (h : fbeq (nw.getD F.inf) st.width_constraint = false)
    (hreb : rebuild_line_offsets st.string
        ((shaper (nw.getD F.inf)).lines.map ShapedLine.utf16Start) = none) :
    update_width shaper st nw = none := by
  unfold update_width
  rw [if_neg (by simp [h]), hreb]

/-- `CoreGraphicsTextLayout::new` (`text.rs` 164-183): the fresh state with
the NaN width sentinel, followed by the mandatory first `update_width`
(whose `unwrap` can only panic where the model is already `none`). -/
def new (shaper : F → ShapeResult) (text : List Char) (width_constraint : F) :
    Option CoreGraphicsTextLayout :=
  let layout : CoreGraphicsTextLayout :=
    { string := text
      frame := none
      frame_size := (0, 0)
      line_y_positions := []
      width_constraint := F.nan
      line_offsets := [] }
  (update_width shaper layout (some width_constraint)).map Prod.fst

/-- `CoreGraphicsText::new_text_layout` (`text.rs` 52-61): absent width
defaults to `+∞`.  The builder's `build` is the identity on the layout. -/
def new_text_layout (shaper : F → ShapeResult) (text : List Char)
    (width : Option F) : Option CoreGraphicsTextLayout :=
  new shaper text (width.getD F.inf)

/-- `line_range` (`text.rs` 228-240), including its `line <= line_count()`
guard taken verbatim from the source.  Outer `none` is a panic
(out-of-bounds `Vec` index), inner `Option` is the Rust return value. -/
def line_range (st : CoreGraphicsTextLayout) (line : Nat) :
    Option (Option (Nat × Nat)) :=
  if line ≤ st.line_count then
    match st.line_offsets[line]? with
    | none => none
    | some start =>
      if line = st.line_count - 1 then
        some (some (start, utf8Len st.string))
      else
        match st.line_offsets[line + 1]? with
        | none => none
        | some e => some (some (start, e))
  else
    some none

/-- `line_text` (`text.rs` 110-113): the unsafe byte slice of the stored
string over the returned range.  Outermost `Option`: panic in `line_range`;
middle: the Rust `Option` return value; innermost: validity of the unsafe
slice (`none` = undefined behaviour, see `byteSlice`). -/
def line_text (st : CoreGraphicsTextLayout) (line_number : Nat) :
    Option (Option (Option (List Char))) :=
  (st.line_range line_number).map (Option.map fun p => byteSlice st.string p.1 p.2)

/-- ASCII whitespace test used by `line_metric`'s trailing-whitespace count
(`b' ' | b'\t' | b'\n' | b'\r'`). -/
def isAsciiWs (c : Char) : Bool :=
  c == ' ' || c == '\t' || c == '\n' || c == '\r'

/-- `line_metric` (`text.rs` 115-149).  The trailing-whitespace count in the
source runs over the line's bytes in reverse; since no trailing byte of a
multi-byte UTF-8 character is ASCII whitespace, counting trailing whitespace
characters is the same number.  `lines.get(i.min(isize::MAX))` is the CFArray
bounds-checked access; `line_y_positions[line_number]` is an unchecked `Vec`
index (outer `none` on failure).  `cumulative_height` uses `f64::ceil`,
modelled by `Rat.ceil`. -/
def line_metric (st : CoreGraphicsTextLayout) (line_number : Nat) :
    Option (Option LineMetric) :=
  match st.frame with
  | none => none
  | some lines =>
    match lines[min line_number (2 ^ 63 - 1)]? with
    | none => some none
    | some l =>
      match st.line_range line_number with
      | none => none
      | some none => some none
      | some (some (start_offset, end_offset)) =>
        match st.line_text line_number with
        | none => none
        | some none => some none
        | some (some text) =>
          match text with
          | some t =>
            match st.line_y_positions[line_number]? with
            | none => none
            | some y =>
              some (some
                { start_offset
                  end_offset
                  trailing_whitespace := (t.reverse.takeWhile isAsciiWs).length
                  baseline := l.ascent
                  height := l.ascent + l.descent + l.leading
                  cumulative_height := ((y + l.descent + l.leading).ceil : ℚ) })
          | none => none

end CoreGraphicsTextLayout

namespace CoreGraphicsTextLayout

/-- States reachable through the public API: construction (which performs
the mandatory first layout pass) followed by any sequence of non-panicking
`update_width` calls. -/
inductive Reachable (shaper : F → ShapeResult) (text : List Char) :
    CoreGraphicsTextLayout → Prop where
  | init (w : Option F) (st : CoreGraphicsTextLayout) :
      new_text_layout shaper text w = some st → Reachable shaper text st
  | step (st st' : CoreGraphicsTextLayout) (nw : Option F) (b : Bool) :
      Reachable shaper text st → update_width shaper st nw = some (st', b) →
      Reachable shaper text st'

/-- The fresh state built by `CoreGraphicsTextLayout::new` before its first
`update_width` call, with the NaN width sentinel. -/
def initState (text : List Char) : CoreGraphicsTextLayout :=
  { string := text
    frame := none
    frame_size := (0, 0)
    line_y_positions := []
    width_constraint := F.nan
    line_offsets := [] }

theorem new_eq (shaper : F → ShapeResult) (text : List Char) (w : F) :
    new shaper text w = (update_width shaper (initState text) (some w)).map Prod.fst :=
  rfl

/-- The cached fields all come from one shaper result, exactly as a single
relayout pass stores them. -/
def FromShape (text : List Char) (r : ShapeResult)
    (st : CoreGraphicsTextLayout) : Prop :=
  st.string = text ∧
  st.frame = some r.lines ∧
  st.line_y_positions = (r.lines.map fun l => r.height - l.originY) ∧
  st.frame_size = (r.width, r.height) ∧
  rebuild_line_offsets text (r.lines.map ShapedLine.utf16Start) = some st.line_offsets

/-- An `update_width` call either skips (keeping the state) or stores one
shaper result wholesale. -/
theorem update_width_cases (shaper : F → ShapeResult)
    (st st' : CoreGraphicsTextLayout) (nw : Option F) (b : Bool)
    (h : update_width shaper st nw = some (st', b)) :
    (fbeq (nw.getD F.inf) st.width_constraint = true ∧ st' = st ∧ b = false) ∨
    (fbeq (nw.getD F.inf) st.width_constraint = false ∧ b = true ∧
      st'.width_constraint = nw.getD F.inf ∧
      FromShape st.string (shaper (nw.getD F.inf)) st') := by
  cases hfb : fbeq (nw.getD F.inf) st.width_constraint with
  | true =>
    rw [update_width_skip shaper st nw hfb] at h
    simp only [Option.some.injEq, Prod.mk.injEq] at h
    exact Or.inl ⟨rfl, h.1.symm, h.2.symm⟩
  | false =>
    cases hreb : rebuild_line_offsets st.string
        ((shaper (nw.getD F.inf)).lines.map ShapedLine.utf16Start) with
    | none =>
      rw [update_width_abort shaper st nw hfb hreb] at h
      exact absurd h (by simp)
    | some offs =>
      rw [update_width_shape shaper st nw offs hfb hreb] at h
      simp only [Option.some.injEq, Prod.mk.injEq] at h
      obtain ⟨hst, hb⟩ := h
      refine Or.inr ⟨rfl, hb.symm, ?_, ?_⟩
      · rw [← hst]; rfl
      · rw [← hst]
        exact ⟨rfl, rfl, rfl, rfl, hreb ▸ rfl⟩

/-- Every reachable state carries the data of a single shaper result, and
its string is the constructor's text. -/
theorem reachable_fromShape (shaper : F → ShapeResult) (text : List Char)
    (st : CoreGraphicsTextLayout) (hr : Reachable shaper text st) :
    ∃ w : F, FromShape text (shaper w) st := by
  induction hr with
  | init w st h =>
    rw [new_text_layout, new_eq] at h
    cases hup : update_width shaper (initState text) (some (w.getD F.inf)) with
    | none => rw [hup] at h; exact absurd h (by simp)
    | some pr =>
      obtain ⟨st0, b⟩ := pr
      rw [hup] at h
      simp only [Option.map_some', Option.some.injEq] at h
      subst h
      rcases update_width_cases shaper _ _ _ _ hup with ⟨hfb, -, -⟩ | ⟨-, -, -, hfs⟩
      · rw [show ((some (w.getD F.inf)).getD F.inf) = w.getD F.inf from rfl,
          show (initState text).width_constraint = F.nan from rfl,
          fbeq_nan_right] at hfb
        exact absurd hfb (by simp)
      · exact ⟨(some (w.getD F.inf)).getD F.inf, hfs⟩
  | step st st' nw b hr hup ih =>
    obtain ⟨w0, hfs⟩ := ih
    rcases update_width_cases shaper _ _ _ _ hup with ⟨-, hst, -⟩ | ⟨-, -, -, hfs'⟩
    · exact ⟨w0, hst ▸ hfs⟩
    · rw [hfs.1] at hfs'
      exact ⟨nw.getD F.inf, hfs'⟩

end CoreGraphicsTextLayout

/-- Well-formed line starts, as CoreText guarantees them for a frame over
the whole paragraph: each line's UTF-16 start offset is the UTF-16 length of
a character prefix of the text (offsets never split a surrogate pair), the
cut points strictly ascend, and the first line starts at offset 0. -/
def GoodStarts (s : List Char) (ts : List Nat) : Prop :=
  ∃ ns : List Nat, ts = ns.map (fun n => utf16Len (s.take n)) ∧
    ns.head? = some 0 ∧ List.Chain' (· < ·) ns ∧ ∀ n ∈ ns, n ≤ s.length

/-- The shaper contract assumed of CoreText: every produced frame has
well-formed line starts for the layout's text. -/
def ShaperGood (text : List Char) (shaper : F → ShapeResult) : Prop :=
  ∀ w : F, GoodStarts text ((shaper w).lines.map ShapedLine.utf16Start)

namespace CoreGraphicsTextLayout

/-- Full characterization of a reachable state under the shaper contract:
all cached fields come from one shaper result, and the line offsets are the
UTF-8 lengths of an ascending chain of character cut points starting at 0. -/
theorem reachable_good_char (shaper : F → ShapeResult) (text : List Char)
    (st : CoreGraphicsTextLayout) (hs : ShaperGood text shaper)
    (hr : Reachable shaper text st) :
    ∃ (r : ShapeResult) (ns : List Nat),
      st.string = text ∧
      st.frame = some r.lines ∧
      st.line_y_positions = (r.lines.map fun l => r.height - l.originY) ∧
      st.frame_size = (r.width, r.height) ∧
      st.line_offsets = ns.map (fun n => utf8Len (text.take n)) ∧
      ns.head? = some 0 ∧ List.Chain' (· < ·) ns ∧ (∀ n ∈ ns, n ≤ text.length) ∧
      ns.length = r.lines.length ∧
      (∃ w : F, r = shaper w) := by
  obtain ⟨w, hfs⟩ := reachable_fromShape shaper text st hr
  obtain ⟨hstr, hframe, hy, hsize, hreb⟩ := hfs
  obtain ⟨ns, hts, hhead, hchain, hmem⟩ := hs w
  rw [hts] at hreb
  rw [rebuild_line_offsets_good text ns hmem hchain] at hreb
  have hoffs : st.line_offsets = ns.map (fun n => utf8Len (text.take n)) :=
    (Option.some.injEq _ _ ▸ hreb : _ = _).symm
  have hlen : ns.length = (shaper w).lines.length := by
    have := congrArg List.length hts
    simpa using this.symm
  exact ⟨shaper w, ns, hstr, hframe, hy, hsize, hoffs, hhead, hchain, hmem, hlen, w, rfl⟩

/-- Evaluation of `line_range` at an in-range index, given the cached
offsets. -/
theorem line_range_eval (st : CoreGraphicsTextLayout) (i : Nat)
    (hi : i < st.line_count) (hlen : st.line_offsets.length = st.line_count) :
    ∃ a, st.line_offsets[i]? = some a ∧
      ((i = st.line_count - 1 ∧
          st.line_range i = some (some (a, utf8Len st.string))) ∨
       (i ≠ st.line_count - 1 ∧ ∃ e, st.line_offsets[i + 1]? = some e ∧
          st.line_range i = some (some (a, e)))) := by
  have hia : i < st.line_offsets.length := by omega
  have ha : st.line_offsets[i]? = some st.line_offsets[i] :=
    List.getElem?_eq_getElem hia
  refine ⟨st.line_offsets[i], ha, ?_⟩
  by_cases hlast : i = st.line_count - 1
  · refine Or.inl ⟨hlast, ?_⟩
    unfold line_range
    rw [if_pos (show i ≤ st.line_count by omega)]
    simp only [ha]
    rw [if_pos hlast]
  · refine Or.inr ⟨hlast, ?_⟩
    have hi1 : i + 1 < st.line_offsets.length := by omega
    have he : st.line_offsets[i + 1]? = some st.line_offsets[i + 1] :=
      List.getElem?_eq_getElem hi1
    refine ⟨st.line_offsets[i + 1], he, ?_⟩
    unfold line_range
    rw [if_pos (show i ≤ st.line_count by omega)]
    simp only [ha, he]
    rw [if_neg hlast]

end CoreGraphicsTextLayout

/-- The Batteries `Rat.ceil` used in the model agrees with Mathlib's
ceiling. -/
theorem ratCeil_eq_ceil (q : ℚ) : (Rat.ceil q : ℤ) = ⌈q⌉ := by
  unfold Rat.ceil
  by_cases h : q.den = 1
  · rw [if_pos h]
    conv_rhs => rw [show q = ((q.num : ℤ) : ℚ) from ((Rat.den_eq_one_iff q).mp h).symm]
    rw [Int.ceil_intCast]
  · rw [if_neg h]
    have hfl : ⌊q⌋ = q.num / q.den := Rat.floor_def
    have hnotint : ((⌊q⌋ : ℤ) : ℚ) ≠ q := by
      intro he
      exact h (by rw [← he]; exact Rat.den_intCast _)
    have h1 : ((⌊q⌋ : ℤ) : ℚ) < q := lt_of_le_of_ne (Int.floor_le q) hnotint
    have h2 : ⌈q⌉ ≤ ⌊q⌋ + 1 := Int.ceil_le.mpr
      (by push_cast; exact le_of_lt (Int.lt_floor_add_one q))
    have h3 : ⌊q⌋ < ⌈q⌉ := by
      by_contra hle
      push_neg at hle
      have hc : ((⌈q⌉ : ℤ) : ℚ) ≤ ((⌊q⌋ : ℤ) : ℚ) := by exact_mod_cast hle
      exact absurd (le_trans (Int.le_ceil q) hc) (not_le.mpr h1)
    have hq : ⌈q⌉ = ⌊q⌋ + 1 := by omega
    rw [hq, hfl]

namespace CoreGraphicsTextLayout

theorem line_text_eval (st : CoreGraphicsTextLayout) (i : Nat) (p : Nat × Nat)
    (hrange : st.line_range i = some (some p)) :
    st.line_text i = some (some (byteSlice st.string p.1 p.2)) := by
  unfold line_text
  rw [hrange]
  rfl

/-- Evaluation of `line_metric` when every intermediate access succeeds. -/
theorem line_metric_eval (st : CoreGraphicsTextLayout) (lines : List ShapedLine)
    (l : ShapedLine) (i a b : Nat) (t : List Char) (y : ℚ)
    (hframe : st.frame = some lines)
    (hclamp : min i (2 ^ 63 - 1) = i)
    (hl : lines[i]? = some l)
    (hrange : st.line_range i = some (some (a, b)))
    (htext : byteSlice st.string a b = some t)
    (hy : st.line_y_positions[i]? = some y) :
    st.line_metric i = some (some
      { start_offset := a
        end_offset := b
        trailing_whitespace := (t.reverse.takeWhile isAsciiWs).length
        baseline := l.ascent
        height := l.ascent + l.descent + l.leading
        cumulative_height := ((y + l.descent + l.leading).ceil : ℚ) }) := by
  have htxt := line_text_eval st i (a, b) hrange
  unfold line_metric
  rw [hframe]
  simp only [hclamp, hl, hrange, htxt, htext, hy]

/-- Out-of-range `line_metric` returns the Rust `None` (no panic), as long
as the frame is populated and has no more lines than `line_count`. -/
theorem line_metric_oob (st : CoreGraphicsTextLayout) (lines : List ShapedLine)
    (i : Nat) (hframe : st.frame = some lines)
    (hoob : lines.length ≤ min i (2 ^ 63 - 1)) :
    st.line_metric i = some none := by
  unfold line_metric
  rw [hframe]
  have : lines[min i (2 ^ 63 - 1)]? = none := List.getElem?_eq_none hoob
  simp only [this]

end CoreGraphicsTextLayout

/-! Concrete fixtures used by the witnesses: a 5-character two-line text
(lines `"ab\n"` and `"cd"`) and a constant shaper whose frame satisfies the
CoreText contract.  Numeric layout fields are kept in their computed form
(`Rat` normalization does not reduce in the kernel), so state equalities
below are definitional. -/

def sampleText : List Char := ['a', 'b', '\n', 'c', 'd']

def sampleShaper : F → ShapeResult := fun _ =>
  { lines :=
      [ { utf16Start := 0, ascent := 1, descent := 0, leading := 0, originY := 1 },
        { utf16Start := 3, ascent := 1, descent := 0, leading := 0, originY := 0 } ]
    width := 5
    height := 2 }

theorem sampleChain : List.Chain' (· < ·) [0, 3] :=
  List.chain'_cons.mpr ⟨by omega, List.chain'_singleton _⟩

theorem sampleShaperGood : ShaperGood sampleText sampleShaper :=
  fun _ => ⟨[0, 3], rfl, rfl, sampleChain, by decide⟩

theorem sampleRebuild (w : F) :
    rebuild_line_offsets sampleText
      ((sampleShaper w).lines.map ShapedLine.utf16Start) = some [0, 3] := rfl

/-- The state the builder produces for `sampleText` at the default infinite
width. -/
def sampleLayout : CoreGraphicsTextLayout :=
  CoreGraphicsTextLayout.relayout_state
    (CoreGraphicsTextLayout.initState sampleText) F.inf (sampleShaper F.inf) [0, 3]

theorem sampleLayout_built :
    CoreGraphicsTextLayout.new_text_layout sampleShaper sampleText none =
      some sampleLayout := by
  show (CoreGraphicsTextLayout.update_width sampleShaper
      (CoreGraphicsTextLayout.initState sampleText) (some F.inf)).map Prod.fst =
    some sampleLayout
  rw [CoreGraphicsTextLayout.update_width_shape sampleShaper
    (CoreGraphicsTextLayout.initState sampleText) (some F.inf) [0, 3]
    rfl (sampleRebuild F.inf)]
  rfl

theorem sampleLayout_reachable :
    CoreGraphicsTextLayout.Reachable sampleShaper sampleText sampleLayout :=
  CoreGraphicsTextLayout.Reachable.init none sampleLayout sampleLayout_built

/-- C2: for every source text and ascending sequence of native line-start
UTF-16 offsets lying on UTF-16 boundaries (encoded as the UTF-16 lengths of
a strictly ascending list of character cut points), `rebuild_line_offsets`
maps each target to the UTF-8 byte length of the unique prefix whose UTF-16
length equals the target; prefixes with equal UTF-16 length coincide
(uniqueness); and a target of 0 is special-cased, consuming no characters
from the shared single-pass iterator state. -/
theorem C2_offset_mapper (s : List Char) (ns : List Nat)
    (hchain : List.Chain' (· < ·) ns) (hmem : ∀ n ∈ ns, n ≤ s.length) :
    rebuild_line_offsets s (ns.map fun n => utf16Len (s.take n)) =
      some (ns.map fun n => utf8Len (s.take n)) ∧
    (∀ n m, n ≤ s.length → m ≤ s.length →
      utf16Len (s.take n) = utf16Len (s.take m) → n = m) ∧
    (∀ (ts : List Nat) (chars : List Char) (a16 a8 : Nat),
      rebuildAux (0 :: ts) chars a16 a8 = (rebuildAux ts chars a16 a8).map (0 :: ·)) := by
  refine ⟨rebuild_line_offsets_good s ns hmem hchain, ?_, ?_⟩
  · intro n m hn hm heq
    rcases Nat.lt_trichotomy n m with h | h | h
    · exact absurd heq (Nat.ne_of_lt (utf16Len_take_lt s n m h hm))
    · exact h
    · exact absurd heq.symm (Nat.ne_of_lt (utf16Len_take_lt s m n h hn))
  · intro ts chars a16 a8
    exact rebuildAux_cons_zero ts chars a16 a8

theorem C2_offset_mapper_witness :
    rebuild_line_offsets sampleText
        ([0, 3].map fun n => utf16Len (sampleText.take n)) =
      some ([0, 3].map fun n => utf8Len (sampleText.take n)) :=
  (C2_offset_mapper sampleText [0, 3] sampleChain (by decide)).1

/-- C6: if some native line-start target is not an accumulated UTF-16
boundary of the source text, the rebuild aborts with the fatal panic
(returns `none`), never a truncated `some`; and when every target is a
boundary of an ascending cut list, no abort occurs. -/
theorem C6_abort_on_mismatch (s : List Char) (ts : List Nat) :
    ((∃ t ∈ ts, ∀ n, n ≤ s.length → utf16Len (s.take n) ≠ t) →
      rebuild_line_offsets s ts = none) ∧
    (∀ ns : List Nat, ts = ns.map (fun n => utf16Len (s.take n)) →
      List.Chain' (· < ·) ns → (∀ n ∈ ns, n ≤ s.length) →
      ∃ offs, rebuild_line_offsets s ts = some offs) := by
  constructor
  · rintro ⟨t, htmem, hbad⟩
    have h := rebuildAux_none s t hbad ts 0 (by omega) htmem
    unfold rebuild_line_offsets
    simpa only [List.drop_zero, List.take_zero, utf16Len, utf8Len] using h
  · intro ns hts hchain hmem
    subst hts
    exact ⟨_, rebuild_line_offsets_good s ns hmem hchain⟩

theorem C6_abort_witness :
    rebuild_line_offsets ['😀'] [1] = none ∧
    ∃ offs, rebuild_line_offsets sampleText
        ([0, 3].map fun n => utf16Len (sampleText.take n)) = some offs :=
  ⟨(C6_abort_on_mismatch ['😀'] [1]).1 ⟨1, by decide, by decide⟩,
   (C6_abort_on_mismatch sampleText
      ([0, 3].map fun n => utf16Len (sampleText.take n))).2 [0, 3] rfl
      sampleChain (by decide)⟩

open CoreGraphicsTextLayout

/-- The state after updating `sampleLayout` to a NaN width: the IEEE
comparison `NaN != cached` is true, so the source relayouts and caches NaN. -/
def nanLayout : CoreGraphicsTextLayout :=
  relayout_state sampleLayout F.nan (sampleShaper F.nan) [0, 3]

/-- C4 counterexample: with the cached width NaN (a state reachable through
the public API), a second `update_width` with the bit-for-bit identical NaN
does not skip: the shaper is invoked again (`true` flag), because IEEE
`NaN != NaN` holds.  The claim's
"skips shaping whenever the argument is bit-for-bit equal to the cached
width" is therefore false at width = NaN. -/
theorem C4_counterexample :
    new_text_layout sampleShaper sampleText none = some sampleLayout ∧
    update_width sampleShaper sampleLayout (some F.nan) = some (nanLayout, true) ∧
    nanLayout.width_constraint = F.nan ∧
    update_width sampleShaper nanLayout (some F.nan) = some (nanLayout, true) := by
  refine ⟨sampleLayout_built, ?_, rfl, ?_⟩
  · rw [update_width_shape sampleShaper sampleLayout (some F.nan) [0, 3]
      rfl (sampleRebuild F.nan)]
    rfl
  · rw [update_width_shape sampleShaper nanLayout (some F.nan) [0, 3]
      rfl (sampleRebuild F.nan)]
    rfl

/-- C4 amended: for every non-NaN width `w`, `update_width` with `w` equal
to the cached width skips shaping entirely and leaves the state unchanged;
consequently calling `update_width w` twice in a row leaves the state of the
first call unchanged and does not invoke the shaper on the second call. -/
theorem C4_amended (shaper : F → ShapeResult) (st : CoreGraphicsTextLayout)
    (w : F) (hw : w ≠ F.nan) :
    (st.width_constraint = w →
      update_width shaper st (some w) = some (st, false)) ∧
    (∀ st1 b, update_width shaper st (some w) = some (st1, b) →
      update_width shaper st1 (some w) = some (st1, false)) := by
  have hskip : ∀ st2 : CoreGraphicsTextLayout, st2.width_constraint = w →
      update_width shaper st2 (some w) = some (st2, false) := by
    intro st2 h2
    apply update_width_skip
    show fbeq w st2.width_constraint = true
    rw [h2]
    exact fbeq_refl w hw
  refine ⟨hskip st, ?_⟩
  intro st1 b h
  rcases update_width_cases shaper st st1 (some w) b h with
    ⟨hfb, hst, -⟩ | ⟨-, -, hwc, -⟩
  · have h1 := (fbeq_true_iff w st.width_constraint).mp hfb
    rw [hst]
    exact hskip st h1.1.symm
  · exact hskip st1 hwc

theorem C4_amended_witness :
    F.inf ≠ F.nan ∧
    update_width sampleShaper sampleLayout (some F.inf) = some (sampleLayout, false) :=
  ⟨by decide, (C4_amended sampleShaper sampleLayout F.inf (by decide)).1 rfl⟩

/-- The state after updating `sampleLayout` to width `-1`. -/
def negLayout : CoreGraphicsTextLayout :=
  relayout_state sampleLayout (F.fin (-1)) (sampleShaper (F.fin (-1))) [0, 3]

/-- C5 counterexample: a negative width and a NaN width are not rejected at
the API boundary: `update_width` succeeds (the Rust function returns
`Ok(())`; the model returns `some`) and passes the value straight to the
shaper (the `true` flag records the shaper invocation). -/
theorem C5_counterexample :
    update_width sampleShaper sampleLayout (some (F.fin (-1))) =
      some (negLayout, true) ∧
    update_width sampleShaper sampleLayout (some F.nan) = some (nanLayout, true) := by
  constructor
  · rw [update_width_shape sampleShaper sampleLayout (some (F.fin (-1))) [0, 3]
      rfl (sampleRebuild (F.fin (-1)))]
    rfl
  · rw [update_width_shape sampleShaper sampleLayout (some F.nan) [0, 3]
      rfl (sampleRebuild F.nan)]
    rfl

/-- C5 amended: `update_width` performs no width validation at all: for
every width value — finite of any sign, infinite, or NaN — it returns
successfully (`Ok`), and it invokes the shaper with that width exactly when
the width differs from the cached one under IEEE `!=`. -/
theorem C5_amended (shaper : F → ShapeResult) (text : List Char)
    (st : CoreGraphicsTextLayout) (w : F)
    (hs : ShaperGood text shaper) (hstr : st.string = text) :
    ∃ st', update_width shaper st (some w) =
      some (st', !(fbeq w st.width_constraint)) := by
  cases hfb : fbeq w st.width_constraint with
  | true => exact ⟨st, update_width_skip shaper st (some w) hfb⟩
  | false =>
    obtain ⟨ns, hts, hhead, hchain, hmem⟩ := hs w
    have hreb := rebuild_line_offsets_good text ns hmem hchain
    rw [← hts] at hreb
    refine ⟨relayout_state st w (shaper w) (ns.map fun n => utf8Len (text.take n)), ?_⟩
    rw [update_width_shape shaper st (some w)
      (ns.map fun n => utf8Len (text.take n)) hfb (by rw [hstr]; exact hreb)]
    rfl

theorem C5_amended_witness :
    ∃ st', update_width sampleShaper sampleLayout (some (F.fin (-2))) =
      some (st', !(fbeq (F.fin (-2)) sampleLayout.width_constraint)) :=
  C5_amended sampleShaper sampleText sampleLayout (F.fin (-2)) sampleShaperGood rfl

/-- C3: the failing input for the out-of-range contract.  On the reachable
two-line layout for `sampleText`, `line_metric(2)` and `line_text(3)` return
the absent value as the claim states, but `line_text(2)` — the index equal
to `line_count()` — panics (models the out-of-bounds `self.line_offsets[2]`
reached through `line_range`'s `line <= self.line_count()` guard, which
should be `<`). -/
theorem C3_line_text_count_panics :
    new_text_layout sampleShaper sampleText none = some sampleLayout ∧
    sampleLayout.line_count = 2 ∧
    sampleLayout.line_metric 2 = some none ∧
    sampleLayout.line_text 3 = some none ∧
    sampleLayout.line_text 2 = none :=
  ⟨sampleLayout_built, by decide, by decide, by decide, by decide⟩

/-- C9: the builder performs exactly one mandatory layout pass.  For every
shaper, text and initial width argument (including the default `+∞` when
absent), the NaN sentinel placed by `new` forces the first `update_width`
into the relayout branch (the `true` flag), and the returned instance has
its frame populated and all cached fields set from that pass. -/
theorem C9_builder_initial_pass (shaper : F → ShapeResult) (text : List Char)
    (w : Option F) (hs : ShaperGood text shaper) :
    ∃ st, new_text_layout shaper text w = some st ∧
      update_width shaper (initState text) (some (w.getD F.inf)) = some (st, true) ∧
      (initState text).width_constraint = F.nan ∧
      st.width_constraint = w.getD F.inf ∧
      st.frame = some (shaper (w.getD F.inf)).lines ∧
      st.line_y_positions = ((shaper (w.getD F.inf)).lines.map fun l =>
        (shaper (w.getD F.inf)).height - l.originY) ∧
      st.frame_size = ((shaper (w.getD F.inf)).width, (shaper (w.getD F.inf)).height) ∧
      rebuild_line_offsets text
        ((shaper (w.getD F.inf)).lines.map ShapedLine.utf16Start) =
          some st.line_offsets := by
  obtain ⟨ns, hts, hhead, hchain, hmem⟩ := hs (w.getD F.inf)
  have hreb := rebuild_line_offsets_good text ns hmem hchain
  rw [← hts] at hreb
  refine ⟨relayout_state (initState text) (w.getD F.inf) (shaper (w.getD F.inf))
    (ns.map fun n => utf8Len (text.take n)), ?_, ?_, rfl, rfl, rfl, rfl, rfl, ?_⟩
  · show (update_width shaper (initState text) (some (w.getD F.inf))).map Prod.fst =
      some _
    rw [update_width_shape shaper (initState text) (some (w.getD F.inf))
      (ns.map fun n => utf8Len (text.take n)) (fbeq_nan_right (w.getD F.inf)) hreb]
    rfl
  · rw [update_width_shape shaper (initState text) (some (w.getD F.inf))
      (ns.map fun n => utf8Len (text.take n)) (fbeq_nan_right (w.getD F.inf)) hreb]
    rfl
  · exact hreb

theorem C9_builder_witness :
    ∃ st, new_text_layout sampleShaper sampleText none = some st ∧
      update_width sampleShaper (initState sampleText) (some F.inf) = some (st, true) :=
  match C9_builder_initial_pass sampleShaper sampleText none sampleShaperGood with
  | ⟨st, h1, h2, _⟩ => ⟨st, h1, h2⟩

theorem lineSlices_getD (s : List Char) :
    ∀ (bs : List Nat) (a : Nat),
      (lineSlices s a bs).length = bs.length + 1 ∧
      (∀ i, i < bs.length →
        (lineSlices s a bs).getD i [] =
          (s.take (bs.getD i 0)).drop ((a :: bs).getD i 0)) ∧
      (lineSlices s a bs).getD bs.length [] = s.drop ((a :: bs).getD bs.length 0) := by
  intro bs
  induction bs with
  | nil =>
    intro a
    exact ⟨rfl, fun i hi => absurd hi (by simp), rfl⟩
  | cons b rest ih =>
    intro a
    obtain ⟨ihlen, ihmid, ihlast⟩ := ih b
    refine ⟨by simpa [lineSlices] using ihlen, ?_, ?_⟩
    · intro i hi
      cases i with
      | zero => rfl
      | succ j =>
        have hj : j < rest.length := by simpa using hi
        show (lineSlices s b rest).getD j [] = _
        rw [ihmid j hj]
        rfl
    · show (lineSlices s b rest).getD rest.length [] = _
      rw [ihlast]
      rfl

theorem chain'_lt_getElem (ns : List Nat) (hchain : List.Chain' (· < ·) ns)
    (i : Nat) (h : i + 1 < ns.length) : ns[i] < ns[i + 1] := by
  have := List.chain'_iff_get.mp hchain i (by omega)
  simpa [List.get_eq_getElem] using this

/-- Per-line characterization of a reachable state: an explicit ascending
cut list `ns` starting at character 0 such that the cached offsets are its
UTF-8 prefix lengths, and both `line_range` and `line_text` evaluate on
every line to the corresponding slice (interior lines end at the next cut,
the last line at the end of the string). -/
theorem reachable_lines_char (shaper : F → ShapeResult) (text : List Char)
    (st : CoreGraphicsTextLayout) (hs : ShaperGood text shaper)
    (hr : Reachable shaper text st) :
    ∃ ns : List Nat,
      ns.head? = some 0 ∧ List.Chain' (· < ·) ns ∧ (∀ n ∈ ns, n ≤ text.length) ∧
      st.line_count = ns.length ∧
      st.line_offsets = ns.map (fun n => utf8Len (text.take n)) ∧
      st.string = text ∧
      (∀ i (hin : i + 1 < ns.length),
        st.line_range i = some (some (utf8Len (text.take (ns[i])),
          utf8Len (text.take (ns[i + 1])))) ∧
        st.line_text i = some (some (some
          ((text.take (ns[i + 1])).drop (ns[i]))))) ∧
      (∀ hne : ns ≠ [],
        st.line_range (ns.length - 1) =
          some (some (utf8Len (text.take (ns.getLast hne)), utf8Len text)) ∧
        st.line_text (ns.length - 1) =
          some (some (some (text.drop (ns.getLast hne))))) := by
  obtain ⟨r, ns, hstr, hframe, hy, hsize, hoffs, hhead, hchain, hmem, hnslen, -⟩ :=
    reachable_good_char shaper text st hs hr
  have hcount : st.line_count = ns.length := by
    show st.line_y_positions.length = ns.length
    rw [hy]
    simp [hnslen]
  have hofflen : st.line_offsets.length = st.line_count := by
    rw [hoffs, hcount]
    simp
  have hget : ∀ i (h : i < ns.length),
      st.line_offsets[i]? = some (utf8Len (text.take (ns[i]))) := by
    intro i h
    rw [hoffs, List.getElem?_eq_getElem (by simpa using h)]
    simp
  refine ⟨ns, hhead, hchain, hmem, hcount, hoffs, hstr, ?_, ?_⟩
  · intro i hin
    have hi : i < st.line_count := by omega
    obtain ⟨a, ha, hcases⟩ := line_range_eval st i hi hofflen
    have ha' : a = utf8Len (text.take (ns[i])) := by
      have := ha.symm.trans (hget i (by omega))
      simpa using this
    rcases hcases with ⟨hlast, -⟩ | ⟨-, e, he, hrange⟩
    · omega
    · have he' : e = utf8Len (text.take (ns[i + 1])) := by
        have := he.symm.trans (hget (i + 1) hin)
        simpa using this
      subst ha' he'
      have hn : ns[i] ≤ ns[i + 1] :=
        le_of_lt (chain'_lt_getElem ns hchain i hin)
      have hslice := byteSlice_boundaries text (ns[i]) (ns[i + 1]) hn
      refine ⟨hrange, ?_⟩
      have := line_text_eval st i _ hrange
      rw [this]
      simp only [hstr]
      rw [hslice]
  · intro hne
    have hlen1 : 1 ≤ ns.length := by
      cases ns with
      | nil => exact absurd rfl hne
      | cons x xs => simp
    have hi : ns.length - 1 < st.line_count := by omega
    obtain ⟨a, ha, hcases⟩ := line_range_eval st (ns.length - 1) hi hofflen
    have hlastget : ns.getLast hne = ns[ns.length - 1] :=
      List.getLast_eq_getElem ns hne
    have ha' : a = utf8Len (text.take (ns.getLast hne)) := by
      have := ha.symm.trans (hget (ns.length - 1) (by omega))
      rw [hlastget]
      simpa using this
    rcases hcases with ⟨-, hrange⟩ | ⟨hne', -⟩
    · subst ha'
      rw [hstr] at hrange
      refine ⟨hrange, ?_⟩
      have htL : text.take text.length = text := List.take_length text
      have hbound : ns.getLast hne ≤ text.length :=
        hmem _ (List.getLast_mem hne)
      have hslice := byteSlice_boundaries text (ns.getLast hne) text.length hbound
      rw [htL] at hslice
      have := line_text_eval st (ns.length - 1) _ hrange
      rw [this]
      simp only [hstr]
      rw [hslice]
    · omega

/-- C1: in every reachable state, the lines partition the source text:
`line_text i` is exactly the byte slice of the source from
`line_offsets[i]` to `line_offsets[i+1]` (the last line ending at the
string's byte length), and concatenating the line texts in order reproduces
the source text with no gaps or overlaps. -/
theorem C1_partition (shaper : F → ShapeResult) (text : List Char)
    (st : CoreGraphicsTextLayout) (hs : ShaperGood text shaper)
    (hr : Reachable shaper text st) :
    (∀ i, i < st.line_count → ∃ a b seg,
      st.line_offsets[i]? = some a ∧
      ((i + 1 < st.line_count ∧ st.line_offsets[i + 1]? = some b) ∨
       (i + 1 = st.line_count ∧ b = utf8Len text)) ∧
      st.line_range i = some (some (a, b)) ∧
      byteSlice text a b = some seg ∧
      st.line_text i = some (some (some seg))) ∧
    (∃ parts : List (List Char), parts.length = st.line_count ∧
      (∀ i, i < st.line_count →
        st.line_text i = some (some (some (parts.getD i [])))) ∧
      parts.flatten = text) := by
  obtain ⟨ns, hhead, hchain, hmem, hcount, hoffs, hstr, hinner, hlast⟩ :=
    reachable_lines_char shaper text st hs hr
  have hget : ∀ i (h : i < ns.length),
      st.line_offsets[i]? = some (utf8Len (text.take (ns[i]))) := by
    intro i h
    rw [hoffs, List.getElem?_eq_getElem (by simpa using h)]
    simp
  constructor
  · intro i hi
    by_cases hin : i + 1 < st.line_count
    · have hin' : i + 1 < ns.length := by omega
      obtain ⟨hrange, htext⟩ := hinner i hin'
      exact ⟨_, _, _, hget i (by omega), Or.inl ⟨hin, hget (i + 1) hin'⟩, hrange,
        byteSlice_boundaries text _ _ (le_of_lt (chain'_lt_getElem ns hchain i hin')),
        htext⟩
    · have hne : ns ≠ [] := by
        intro h0
        rw [h0] at hcount
        simp at hcount
        omega
      have hieq : i = ns.length - 1 := by omega
      subst hieq
      obtain ⟨hrange, htext⟩ := hlast hne
      refine ⟨_, utf8Len text, _, ?_, Or.inr ⟨by omega, rfl⟩, hrange, ?_, htext⟩
      · rw [List.getLast_eq_getElem ns hne]
        exact hget (ns.length - 1) (by omega)
      · have htL : text.take text.length = text := List.take_length text
        have hb : ns.getLast hne ≤ text.length := hmem _ (List.getLast_mem hne)
        have hslice := byteSlice_boundaries text (ns.getLast hne) text.length hb
        rw [htL] at hslice
        exact hslice
  · obtain ⟨n0, tail, rfl⟩ : ∃ n0 tail, ns = n0 :: tail := by
      cases ns with
      | nil => simp at hhead
      | cons a b => exact ⟨a, b, rfl⟩
    have hn0 : n0 = 0 := by simpa using hhead
    subst hn0
    obtain ⟨plen, pmid, plast⟩ := lineSlices_getD text tail 0
    refine ⟨lineSlices text 0 tail, by rw [plen, hcount]; simp, ?_, ?_⟩
    · intro i hi
      by_cases hitail : i < tail.length
      · have hin' : i + 1 < (0 :: tail).length := by simp; omega
        obtain ⟨-, htext⟩ := hinner i hin'
        rw [htext, pmid i hitail]
        have e1 : tail.getD i 0 = (0 :: tail)[i + 1] := by
          rw [List.getD_eq_getElem tail 0 hitail]
          simp
        have e2 : (0 :: tail).getD i 0 = (0 :: tail)[i] := by
          rw [List.getD_eq_getElem (0 :: tail) 0 (by simp; omega)]
        rw [e1, e2]
      · have hieq : i = tail.length := by
          have h1 : st.line_count = tail.length + 1 := by
            rw [hcount]
            simp
          omega
        subst hieq
        have hne : (0 :: tail) ≠ [] := by simp
        obtain ⟨-, htext⟩ := hlast hne
        rw [show (0 :: tail).length - 1 = tail.length by simp] at htext
        rw [htext, plast]
        have e3 : (0 :: tail).getD tail.length 0 = (0 :: tail).getLast hne := by
          rw [List.getLast_eq_getElem]
          rw [List.getD_eq_getElem (0 :: tail) 0 (by simp)]
          simp
        rw [e3]
    · have hch : List.Chain' (· ≤ ·) (0 :: tail) :=
        hchain.imp (fun _ _ h => le_of_lt h)
      have hj := join_lineSlices text tail 0 (by omega)
        (fun x hx => hmem x (List.mem_cons_of_mem _ hx)) hch
      simpa using hj

theorem C1_partition_witness :
    ∃ parts : List (List Char), parts.length = sampleLayout.line_count ∧
      (∀ i, i < sampleLayout.line_count →
        sampleLayout.line_text i = some (some (some (parts.getD i [])))) ∧
      parts.flatten = sampleText :=
  (C1_partition sampleShaper sampleText sampleLayout sampleShaperGood
    sampleLayout_reachable).2

/-- C7: in every state reachable through construction or any sequence of
`update_width` calls, the first entry of `line_offsets` is 0 and
`line_metric 0` reports `start_offset = 0`, for every text, shaper and
width. -/
theorem C7_first_offset (shaper : F → ShapeResult) (text : List Char)
    (st : CoreGraphicsTextLayout) (hs : ShaperGood text shaper)
    (hr : Reachable shaper text st) :
    st.line_offsets[0]? = some 0 ∧
    ∃ m : LineMetric, st.line_metric 0 = some (some m) ∧ m.start_offset = 0 := by
  obtain ⟨r, ns0, hstr0, hframe, hy, hsize, hoffs0, hhead0, hchain0, hmem0, hnslen, -⟩ :=
    reachable_good_char shaper text st hs hr
  obtain ⟨ns, hhead, hchain, hmem, hcount, hoffs, hstr, hinner, hlast⟩ :=
    reachable_lines_char shaper text st hs hr
  obtain ⟨n0, tail, rfl⟩ : ∃ n0 tail, ns = n0 :: tail := by
    cases ns with
    | nil => simp at hhead
    | cons a b => exact ⟨a, b, rfl⟩
  have hn0 : n0 = 0 := by simpa using hhead
  subst hn0
  have hcpos : 0 < st.line_count := by
    rw [hcount]
    simp
  have hoff0 : st.line_offsets[0]? = some 0 := by
    rw [hoffs, List.getElem?_eq_getElem (by simp)]
    simp [utf8Len]
  refine ⟨hoff0, ?_⟩
  have hrl : r.lines.length = st.line_count := by
    show _ = st.line_y_positions.length
    rw [hy]
    simp
  obtain ⟨a, b, seg, hrange, htext, ha0⟩ :
      ∃ a b seg, st.line_range 0 = some (some (a, b)) ∧
        st.line_text 0 = some (some (some seg)) ∧ a = 0 := by
    cases tail with
    | nil =>
      obtain ⟨hrange, htext⟩ := hlast (by simp)
      rw [show (0 :: ([] : List Nat)).length - 1 = 0 from rfl] at hrange htext
      refine ⟨_, _, _, hrange, htext, ?_⟩
      simp [utf8Len]
    | cons t0 rest =>
      obtain ⟨hrange, htext⟩ := hinner 0 (by simp)
      refine ⟨_, _, _, hrange, htext, ?_⟩
      simp [utf8Len]
  subst ha0
  have hbyte : byteSlice st.string 0 b = some seg := by
    have h1 := line_text_eval st 0 (0, b) hrange
    have h2 := h1.symm.trans htext
    simpa using h2
  have hl0 : 0 < r.lines.length := by omega
  have hy0 : 0 < st.line_y_positions.length := by
    rw [hy]
    simpa using hl0
  exact ⟨_, line_metric_eval st r.lines (r.lines[0]) 0 0 b seg
    (st.line_y_positions[0]) hframe (by simp)
    (List.getElem?_eq_getElem hl0) hrange hbyte
    (List.getElem?_eq_getElem hy0), rfl⟩

theorem C7_first_offset_witness :
    sampleLayout.line_offsets[0]? = some 0 ∧
    ∃ m : LineMetric, sampleLayout.line_metric 0 = some (some m) ∧
      m.start_offset = 0 :=
  C7_first_offset sampleShaper sampleText sampleLayout sampleShaperGood
    sampleLayout_reachable

theorem offsets_get (st : CoreGraphicsTextLayout) (text : List Char) (ns : List Nat)
    (hoffs : st.line_offsets = ns.map fun n => utf8Len (text.take n))
    (i : Nat) (h : i < ns.length) :
    st.line_offsets[i]? = some (utf8Len (text.take (ns[i]))) := by
  rw [hoffs, List.getElem?_eq_getElem (by simpa using h)]
  simp

/-- C10: in every reachable state, every cached line offset is the UTF-8
length of a character prefix of the stored string (an in-bounds character
boundary), and every `(start, end)` pair actually returned by `line_range`
has `start ≤ end ≤ len` with both ends on character boundaries — so the
unchecked slice in `line_text` is valid, in-bounds UTF-8 and never splits a
multi-byte character (`byteSlice` succeeds). -/
theorem C10_slice_safety (shaper : F → ShapeResult) (text : List Char)
    (st : CoreGraphicsTextLayout) (hs : ShaperGood text shaper)
    (hr : Reachable shaper text st) :
    (∀ off ∈ st.line_offsets, ∃ n, n ≤ text.length ∧ off = utf8Len (text.take n)) ∧
    (∀ i a b, st.line_range i = some (some (a, b)) →
      a ≤ b ∧ b ≤ utf8Len text ∧
      (∃ n, n ≤ text.length ∧ a = utf8Len (text.take n)) ∧
      (∃ m, m ≤ text.length ∧ b = utf8Len (text.take m)) ∧
      ∃ seg, byteSlice text a b = some seg) := by
  obtain ⟨r, ns, hstr, hframe, hy, hsize, hoffs, hhead, hchain, hmem, hnslen, -⟩ :=
    reachable_good_char shaper text st hs hr
  have hofflen : st.line_offsets.length = ns.length := by
    rw [hoffs]
    simp
  constructor
  · intro off hoff
    rw [hoffs] at hoff
    obtain ⟨n, hn, rfl⟩ := List.mem_map.mp hoff
    exact ⟨n, hmem n hn, rfl⟩
  · intro i a b h
    unfold line_range at h
    split at h
    case isFalse => exact absurd h (by simp)
    case isTrue hle =>
    split at h
    case h_1 => exact absurd h (by simp)
    case h_2 a' hgi =>
    have hilen : i < ns.length := by
      by_contra hcon
      rw [List.getElem?_eq_none (by omega)] at hgi
      simp at hgi
    have ha' : a' = utf8Len (text.take (ns[i])) := by
      have := hgi.symm.trans (offsets_get st text ns hoffs i hilen)
      simpa using this
    have hnle : ns[i] ≤ text.length := hmem _ (List.getElem_mem hilen)
    split at h
    case isTrue hlastc =>
      simp only [Option.some.injEq, Prod.mk.injEq] at h
      obtain ⟨ha, hb⟩ := h
      subst ha hb
      rw [hstr, ha']
      have htL : text.take text.length = text := List.take_length text
      refine ⟨utf8Len_take_le_utf8Len text _, le_refl _,
        ⟨ns[i], hnle, rfl⟩, ⟨text.length, le_refl _, by rw [htL]⟩, ?_⟩
      have hslice := byteSlice_boundaries text (ns[i]) text.length hnle
      rw [htL] at hslice
      exact ⟨_, hslice⟩
    case isFalse hlastc =>
    split at h
    case h_1 => exact absurd h (by simp)
    case h_2 e he =>
    have hi1len : i + 1 < ns.length := by
      by_contra hcon
      rw [List.getElem?_eq_none (by omega)] at he
      simp at he
    have he' : e = utf8Len (text.take (ns[i + 1])) := by
      have := he.symm.trans (offsets_get st text ns hoffs (i + 1) hi1len)
      simpa using this
    simp only [Option.some.injEq, Prod.mk.injEq] at h
    obtain ⟨ha, hb⟩ := h
    subst ha hb
    rw [ha', he']
    have hlt : ns[i] ≤ ns[i + 1] :=
      le_of_lt (chain'_lt_getElem ns hchain i hi1len)
    have hmle : ns[i + 1] ≤ text.length := hmem _ (List.getElem_mem hi1len)
    exact ⟨utf8Len_take_le text _ _ hlt, utf8Len_take_le_utf8Len text _,
      ⟨ns[i], hnle, rfl⟩, ⟨ns[i + 1], hmle, rfl⟩,
      ⟨_, byteSlice_boundaries text _ _ hlt⟩⟩

theorem C10_slice_safety_witness :
    ∃ n, n ≤ sampleText.length ∧ 3 = utf8Len (sampleText.take n) :=
  (C10_slice_safety sampleShaper sampleText sampleLayout sampleShaperGood
    sampleLayout_reachable).1 3 (by decide)

/-- The bottom of a line's visual extent measured from the top of the frame:
flipped baseline position plus descent plus leading. -/
def lineBottom (r : ShapeResult) (l : ShapedLine) : ℚ :=
  (r.height - l.originY) + l.descent + l.leading

/-- Numeric well-formedness of a shaper frame, as CoreText produces it:
line bottoms are non-decreasing down the frame, the last baseline sits
`descent + leading` above the frame bottom (up to less than one unit), and
the suggested frame height is whole. -/
def FrameNumericWF (r : ShapeResult) : Prop :=
  List.Chain' (fun a b => lineBottom r a ≤ lineBottom r b) r.lines ∧
  (∀ hne : r.lines ≠ [],
    0 ≤ (r.lines.getLast hne).originY -
        ((r.lines.getLast hne).descent + (r.lines.getLast hne).leading) ∧
    (r.lines.getLast hne).originY -
        ((r.lines.getLast hne).descent + (r.lines.getLast hne).leading) < 1) ∧
  ∃ k : ℤ, r.height = (k : ℚ)

theorem chain'_le_pairwise {α : Type} (f : α → ℚ) (l : List α)
    (hc : List.Chain' (fun a b => f a ≤ f b) l) :
    ∀ i j (hi : i < l.length) (hj : j < l.length), i ≤ j →
      f (l[i]) ≤ f (l[j]) := by
  intro i j
  induction j with
  | zero =>
    intro hi hj hij
    have h0 : i = 0 := by omega
    subst h0
    exact le_refl _
  | succ j ih =>
    intro hi hj hij
    rcases Nat.eq_or_lt_of_le hij with heq | hlt
    · subst heq
      exact le_refl _
    · have hij' : i ≤ j := by omega
      have hj' : j < l.length := by omega
      have step : f (l[j]) ≤ f (l[j + 1]) := by
        have := List.chain'_iff_get.mp hc j (by omega)
        simpa [List.get_eq_getElem] using this
      exact le_trans (ih hi hj' hij') step

/-- C8: under the shaper contract, the `cumulative_height` values reported
by `line_metric` — `ceil(line_y_positions[i] + descent + leading)` — are
non-decreasing in the line index, and the last line's value equals the
frame's total height.  The bound on `line_count` is the `Vec`/`CFArray`
length bound (`isize::MAX`). -/
theorem C8_cumulative_height (shaper : F → ShapeResult) (text : List Char)
    (st : CoreGraphicsTextLayout) (hs : ShaperGood text shaper)
    (hr : Reachable shaper text st)
    (hnum : ∀ w, FrameNumericWF (shaper w))
    (hsz : st.line_count ≤ 2 ^ 63 - 1) :
    (∀ i j mi mj, i ≤ j →
      st.line_metric i = some (some mi) → st.line_metric j = some (some mj) →
      mi.cumulative_height ≤ mj.cumulative_height) ∧
    (∀ m, st.line_metric (st.line_count - 1) = some (some m) →
      m.cumulative_height = st.frame_size.2) := by
  obtain ⟨r, ns, hstr, hframe, hy, hsize, hoffs, hhead, hchain, hmem, hnslen, w0, hw0⟩ :=
    reachable_good_char shaper text st hs hr
  obtain ⟨ns', hhead', hchain', hmem', hcount', hoffs', hstr', hinner, hlast'⟩ :=
    reachable_lines_char shaper text st hs hr
  have hwf : FrameNumericWF r := by
    rw [hw0]
    exact hnum w0
  obtain ⟨hwf1, hwf2, k, hk⟩ := hwf
  have hrl : r.lines.length = st.line_count := by
    show _ = st.line_y_positions.length
    rw [hy]
    simp
  have hmetric : ∀ i (hi : i < st.line_count), ∃ m : LineMetric,
      st.line_metric i = some (some m) ∧
      m.cumulative_height =
        ((Rat.ceil (lineBottom r (r.lines[i]))) : ℚ) := by
    intro i hi
    obtain ⟨a, b, seg, hrange, htext⟩ :
        ∃ a b seg, st.line_range i = some (some (a, b)) ∧
          st.line_text i = some (some (some seg)) := by
      by_cases hin : i + 1 < ns'.length
      · obtain ⟨h1, h2⟩ := hinner i hin
        exact ⟨_, _, _, h1, h2⟩
      · have hne : ns' ≠ [] := by
          intro h0
          rw [h0] at hcount'
          simp at hcount'
          omega
        have hieq : i = ns'.length - 1 := by omega
        obtain ⟨h1, h2⟩ := hlast' hne
        rw [← hieq] at h1 h2
        exact ⟨_, _, _, h1, h2⟩
    have hbyte : byteSlice st.string a b = some seg := by
      have h1 := line_text_eval st i (a, b) hrange
      have h2 := h1.symm.trans htext
      simpa using h2
    have hil : i < r.lines.length := by omega
    have hyi : st.line_y_positions[i]? =
        some (r.height - (r.lines[i]).originY) := by
      rw [hy, List.getElem?_eq_getElem (by simpa using hil)]
      simp
    exact ⟨_, line_metric_eval st r.lines (r.lines[i]) i a b seg
      (r.height - (r.lines[i]).originY) hframe (Nat.min_eq_left (by omega))
      (List.getElem?_eq_getElem hil) hrange hbyte hyi, rfl⟩
  have hoob : ∀ i, st.line_count ≤ i → st.line_metric i = some none := by
    intro i hile
    apply line_metric_oob st r.lines i hframe
    omega
  have hinv : ∀ i m, st.line_metric i = some (some m) →
      ∃ hi : i < r.lines.length,
        m.cumulative_height =
          ((Rat.ceil (lineBottom r (r.lines[i]))) : ℚ) := by
    intro i m hm
    by_cases hi : i < st.line_count
    · obtain ⟨m', hm', hcum⟩ := hmetric i hi
      have hmm : m' = m := by
        have := hm'.symm.trans hm
        simpa using this
      exact ⟨by omega, by rw [← hmm]; exact hcum⟩
    · rw [hoob i (by omega)] at hm
      simp at hm
  constructor
  · intro i j mi mj hij hmi hmj
    obtain ⟨hi, hci⟩ := hinv i mi hmi
    obtain ⟨hj, hcj⟩ := hinv j mj hmj
    rw [hci, hcj, ratCeil_eq_ceil, ratCeil_eq_ceil]
    have hmono := chain'_le_pairwise (lineBottom r) r.lines hwf1 i j hi hj hij
    exact_mod_cast Int.ceil_mono hmono
  · intro m hm
    obtain ⟨hi, hci⟩ := hinv (st.line_count - 1) m hm
    have hne : r.lines ≠ [] := by
      intro h0
      rw [h0] at hi
      simp at hi
    obtain ⟨hge, hlt1⟩ := hwf2 hne
    have hidx : st.line_count - 1 = r.lines.length - 1 := by omega
    have hlast_eq : r.lines[st.line_count - 1] = r.lines.getLast hne := by
      rw [List.getLast_eq_getElem]
      simp only [hidx]
    rw [hci, hlast_eq, ratCeil_eq_ceil]
    have hceil : ⌈lineBottom r (r.lines.getLast hne)⌉ = k := by
      rw [Int.ceil_eq_iff]
      unfold lineBottom
      constructor
      · rw [hk]
        linarith
      · rw [hk]
        linarith
    rw [hceil]
    rw [show st.frame_size.2 = r.height by rw [hsize]]
    rw [hk]

theorem sampleWF : ∀ w, FrameNumericWF (sampleShaper w) := by
  intro w
  refine ⟨?_, ?_, 2, by show (2 : ℚ) = ((2 : ℤ) : ℚ); norm_num⟩
  · refine List.chain'_cons.mpr ⟨?_, List.chain'_singleton _⟩
    show (2 : ℚ) - 1 + 0 + 0 ≤ 2 - 0 + 0 + 0
    norm_num
  · intro hne
    constructor
    · show (0 : ℚ) ≤ 0 - (0 + 0)
      norm_num
    · show (0 : ℚ) - (0 + 0) < 1
      norm_num

theorem C8_cumulative_height_witness :
    ∃ m : LineMetric,
      sampleLayout.line_metric (sampleLayout.line_count - 1) = some (some m) ∧
      m.cumulative_height = sampleLayout.frame_size.2 := by
  have hm := line_metric_eval sampleLayout (sampleShaper F.inf).lines
    { utf16Start := 3, ascent := 1, descent := 0, leading := 0, originY := 0 }
    1 3 5 ['c', 'd'] ((2 : ℚ) - 0) rfl (by decide) rfl (by decide) (by decide) rfl
  exact ⟨_, hm, (C8_cumulative_height sampleShaper sampleText sampleLayout
    sampleShaperGood sampleLayout_reachable sampleWF (by decide)).2 _ hm⟩
